import Mathlib

/-
  Verification of the detection post-processing pipeline of
  `plugins/extract/detect/s3fd.py` (faceswap): box decoding against prior
  anchors, confidence filtering, and weighted non-maximum suppression.

  The embedding mirrors the numpy code:
  * boxes are 5-tuples (x1, y1, x2, y2, score);
  * `_nms` is modelled with the mutable `boxes` array passed explicitly
    (the source assigns `boxes[best, :4] = vote` in place), the stale
    `areas` vector computed once up front, and `argsort()[::-1]` modelled
    by a deterministic descending sort on indices (numpy's tie order is
    unspecified);
  * `_post_process` is modelled on the tensors *after* the softmax step
    (lines 423-424 of the source): `ScaleTensors.cls` holds the
    post-softmax foreground (channel 1) score of each grid cell, which is
    all the remaining code reads;
  * floating-point arithmetic is modelled exactly: over an arbitrary
    linear ordered field for `_nms` (instantiated at ℚ and ℝ), and over ℝ
    for the decoder, whose `np.exp` is `Real.exp`.
-/

namespace S3fd

/-- One candidate detection row `(x1, y1, x2, y2, score)`. -/
structure Box (α : Type) where
  x1 : α
  y1 : α
  x2 : α
  y2 : α
  score : α
deriving DecidableEq

/-- The all-zero row `np.zeros((1, 5))` that `_post_process` returns when no
candidate survives; also used as the out-of-range default for array reads. -/
def Box.zero {α : Type} [Zero α] : Box α := ⟨0, 0, 0, 0, 0⟩

variable {α : Type} [LinearOrderedField α]

/-- `areas = (boxes[:, 2] - boxes[:, 0] + 1) * (boxes[:, 3] - boxes[:, 1] + 1)`
(source line 474). -/
def area (b : Box α) : α := (b.x2 - b.x1 + 1) * (b.y2 - b.y1 + 1)

/-- Intersection area of two boxes as computed at source lines 479-482:
coordinate-wise `max 0 (min hi hi' - max lo lo' + 1)`, width times height. -/
def interArea (a b : Box α) : α :=
  max 0 (min a.x2 b.x2 - max a.x1 b.x1 + 1) *
    max 0 (min a.y2 b.y2 - max a.y1 b.y1 + 1)

/-- Intersection over union of two boxes (intersection divided by the sum of
the two areas minus the intersection), as at source lines 483-484. -/
def iou (a b : Box α) : α :=
  interArea a b / (area a + area b - interArea a b)

/-- The `iou` value the loop computes for array positions `i` (best) and `j`:
the intersection is taken from the current array contents, the denominator
from the stale `areas` vector computed before the loop (lines 474, 479-484). -/
def iouAt (areas : List α) (arr : List (Box α)) (i j : ℕ) : α :=
  interArea (arr.getD i Box.zero) (arr.getD j Box.zero) /
    (areas.getD i 0 + areas.getD j 0 -
      interArea (arr.getD i Box.zero) (arr.getD j Box.zero))

/-- `np.average(boxes[overlap_set, :4], axis=0, weights=boxes[overlap_set, 4])`
(source line 489): coordinate-wise score-weighted average. -/
def vote (bs : List (Box α)) : α × α × α × α :=
  (((bs.map fun b => b.score * b.x1).sum) / (bs.map Box.score).sum,
   ((bs.map fun b => b.score * b.y1).sum) / (bs.map Box.score).sum,
   ((bs.map fun b => b.score * b.x2).sum) / (bs.map Box.score).sum,
   ((bs.map fun b => b.score * b.y2).sum) / (bs.map Box.score).sum)

/-- `boxes[best, :4] = vote` keeps the score and overwrites the coordinates
(source line 490). -/
def setCoords (b : Box α) (c : α × α × α × α) : Box α :=
  ⟨c.1, c.2.1, c.2.2.1, c.2.2.2, b.score⟩

/-- The `overlapping_boxes` partition of one loop iteration: the members of
`rest` whose `iou` against `best` strictly exceeds the threshold (source
line 486). -/
def overlapping (t : α) (areas : List α) (arr : List (Box α))
    (best : ℕ) (rest : List ℕ) : List ℕ :=
  rest.filter fun j => t < iouAt areas arr best j

/-- The `non_overlapping_boxes` partition: members of `rest` whose `iou`
against `best` is at most the threshold (source line 493). -/
def nonOverlapping (t : α) (areas : List α) (arr : List (Box α))
    (best : ℕ) (rest : List ℕ) : List ℕ :=
  rest.filter fun j => iouAt areas arr best j ≤ t

/-- The state of the `boxes` array after one iteration's merge step (source
lines 487-490): if the overlapping partition is non-empty, row `best` gets
the score-weighted average of the *overlapping* rows' coordinates. -/
def mergeBest (t : α) (areas : List α) (arr : List (Box α))
    (best : ℕ) (rest : List ℕ) : List (Box α) :=
  if (overlapping t areas arr best rest).isEmpty then arr
  else arr.set best (setCoords (arr.getD best Box.zero)
    (vote ((overlapping t areas arr best rest).map fun j => arr.getD j Box.zero)))

/-- The `while ranked_indices.size > 0` loop of `_nms` (source lines 476-494).
`arr` is the current state of the mutable `boxes` array, `ranked` the current
`ranked_indices`.  Returns `(retained_box_indices, final array state)`. -/
def nmsLoop (t : α) (areas : List α) :
    List (Box α) → List ℕ → List ℕ × List (Box α)
  | arr, [] => ([], arr)
  | arr, best :: rest =>
    let res := nmsLoop t areas (mergeBest t areas arr best rest)
      (nonOverlapping t areas arr best rest)
    (best :: res.1, res.2)
  termination_by _ ranked => ranked.length
  decreasing_by
    simpa [nonOverlapping] using Nat.lt_succ_of_le (List.length_filter_le _ _)

/-- `boxes[:, 4].argsort()[::-1]` (source line 475): the indices
`0, ..., n-1` sorted by descending score (deterministic model of numpy's
unspecified tie order). -/
def rankedIndices (boxes : List (Box α)) : List ℕ :=
  List.insertionSort
    (fun i j => (boxes.getD j Box.zero).score ≤ (boxes.getD i Box.zero).score)
    (List.range boxes.length)

/-- Run the whole `_nms` loop, returning the retained indices together with
the final state of the (mutated) `boxes` array. -/
def nmsRun (boxes : List (Box α)) (t : α) : List ℕ × List (Box α) :=
  nmsLoop t (boxes.map area) boxes (rankedIndices boxes)

/-- `_nms boxes t`: the value `boxes[retained_box_indices]` returned at source
line 495, read from the final array state. -/
def nms (boxes : List (Box α)) (t : α) : List (Box α) :=
  (nmsRun boxes t).1.map fun i => (nmsRun boxes t).2.getD i Box.zero

/-- The state of the caller's `boxes` array after `_nms` returns (the source
mutates it through `boxes[best, :4] = vote`). -/
def nmsFinal (boxes : List (Box α)) (t : α) : List (Box α) :=
  (nmsRun boxes t).2

/-- Input of one feature-map scale to `_post_process`, after the softmax of
source lines 423-424: `cls h w` is the post-softmax foreground score
`ocls[0, h, w, 1]` and `reg h w` the regression 4-vector `oreg[0, h, w, :]`. -/
structure ScaleTensors where
  height : ℕ
  width : ℕ
  cls : ℕ → ℕ → ℝ
  reg : ℕ → ℕ → ℝ × ℝ × ℝ × ℝ

/-- `S3fd.decode` (source lines 445-467) on one location/prior pair, both in
`(x-or-cx, y-or-cy, w, h)` order.  Mirrors the numpy steps: concatenate
center `(px + lx*0.1*pw, py + ly*0.1*ph)` with size
`(pw*exp(lw*0.2), ph*exp(lh*0.2))`, then `boxes[:, :2] -= boxes[:, 2:]/2`
and `boxes[:, 2:] += boxes[:, :2]`. -/
noncomputable def decode (location priorbox : ℝ × ℝ × ℝ × ℝ) : ℝ × ℝ × ℝ × ℝ :=
  let cx := priorbox.1 + location.1 * 0.1 * priorbox.2.2.1
  let cy := priorbox.2.1 + location.2.1 * 0.1 * priorbox.2.2.2
  let w := priorbox.2.2.1 * Real.exp (location.2.2.1 * 0.2)
  let h := priorbox.2.2.2 * Real.exp (location.2.2.2 * 0.2)
  (cx - w / 2, cy - h / 2, (cx - w / 2) + w, (cy - h / 2) + h)

/-- The candidates one scale contributes in `_post_process` (source lines
426-437), scale index `i` giving `stride = 2 ** (i + 2)`.  A cell `(h, w)`
is visited by `np.where(ocls[:, :, :, 1] > 0.05)` in row-major order and
emits a row iff additionally `score >= confidence`. -/
noncomputable def scaleCandidates (confidence : ℝ) (i : ℕ) (s : ScaleTensors) :
    List (Box ℝ) :=
  (List.range s.height).flatMap fun hindex =>
    (List.range s.width).filterMap fun windex =>
      if (0.05 : ℝ) < s.cls hindex windex then
        if confidence ≤ s.cls hindex windex then
          let stride : ℝ := 2 ^ (i + 2)
          let axc := stride / 2 + windex * stride
          let ayc := stride / 2 + hindex * stride
          let b := decode (s.reg hindex windex) (axc, ayc, stride * 4, stride * 4)
          some ⟨b.1, b.2.1, b.2.2.1, b.2.2.2, s.cls hindex windex⟩
        else none
      else none

/-- The `for i in range(len(bboxlist) // 2)` accumulation of `_post_process`
over the scales, starting at scale index `i`. -/
noncomputable def candidatesFrom (confidence : ℝ) :
    ℕ → List ScaleTensors → List (Box ℝ)
  | _, [] => []
  | i, s :: rest =>
    scaleCandidates confidence i s ++ candidatesFrom confidence (i + 1) rest

/-- `_post_process` (source lines 418-438) on the softmaxed tensors:
the accumulated candidate rows, or the single row `np.zeros((1, 5))` when no
candidate was retained. -/
noncomputable def postProcess (confidence : ℝ) (scales : List ScaleTensors) :
    List (Box ℝ) :=
  let retval := candidatesFrom confidence 0 scales
  if retval.isEmpty then [Box.zero] else retval

/-- The per-image body of `finalize_predictions` (source lines 412-414):
`self._nms(self._post_process(bboxlist), 0.5)`. -/
noncomputable def finalizeSingle (confidence : ℝ) (scales : List ScaleTensors) :
    List (Box ℝ) :=
  nms (postProcess confidence scales) (1 / 2)

/-! ### Unfolding and evaluation lemmas for the `_nms` loop -/

lemma nmsLoop_nil (t : α) (areas : List α) (arr : List (Box α)) :
    nmsLoop t areas arr [] = ([], arr) := by
  rw [nmsLoop]

lemma nmsLoop_cons (t : α) (areas : List α) (arr : List (Box α))
    (best : ℕ) (rest : List ℕ) :
    nmsLoop t areas arr (best :: rest) =
      ((best :: (nmsLoop t areas (mergeBest t areas arr best rest)
          (nonOverlapping t areas arr best rest)).1),
       (nmsLoop t areas (mergeBest t areas arr best rest)
          (nonOverlapping t areas arr best rest)).2) := by
  rw [nmsLoop]

/-- One loop iteration, phrased with the intermediate values as hypotheses so
that concrete runs can be evaluated step by step. -/
lemma nmsLoop_cons_eval {t : α} {areas : List α} {arr arr2 arrF : List (Box α)}
    {best : ℕ} {rest rest2 ret : List ℕ}
    (hmerge : mergeBest t areas arr best rest = arr2)
    (hnon : nonOverlapping t areas arr best rest = rest2)
    (hrec : nmsLoop t areas arr2 rest2 = (ret, arrF)) :
    nmsLoop t areas arr (best :: rest) = (best :: ret, arrF) := by
  rw [nmsLoop_cons, hmerge, hnon, hrec]

/-- On a one-box array the loop retains the box and leaves the array alone:
`rest` is empty, so both partitions are empty and no merge happens. -/
lemma nms_singleton (b : Box α) (t : α) : nms [b] t = [b] := by
  have hrun : nmsRun [b] t = ([0], [b]) := by
    rw [nmsRun]
    show nmsLoop t (List.map area [b]) [b] [0] = ([0], [b])
    exact nmsLoop_cons_eval rfl rfl (nmsLoop_nil _ _ _)
  rw [nms, hrun]
  rfl

/-- The sorted index list is a permutation of `0, ..., n-1`. -/
lemma rankedIndices_perm (boxes : List (Box α)) :
    (rankedIndices boxes).Perm (List.range boxes.length) :=
  List.perm_insertionSort _ _

lemma rankedIndices_length (boxes : List (Box α)) :
    (rankedIndices boxes).length = boxes.length := by
  simpa using (rankedIndices_perm boxes).length_eq

lemma rankedIndices_nodup (boxes : List (Box α)) :
    (rankedIndices boxes).Nodup :=
  ((rankedIndices_perm boxes).nodup_iff).mpr (List.nodup_range _)

lemma rankedIndices_mem {boxes : List (Box α)} {i : ℕ}
    (h : i ∈ rankedIndices boxes) : i < boxes.length := by
  have := (rankedIndices_perm boxes).mem_iff.mp h
  simpa using this

/-- With the `areas` vector as computed up front, the loop's `iou` at two
in-range positions is exactly the `iou` of the two rows. -/
lemma iouAt_map_area (boxes : List (Box α)) {i j : ℕ}
    (hi : i < boxes.length) (hj : j < boxes.length) :
    iouAt (boxes.map area) boxes i j =
      iou (boxes.getD i Box.zero) (boxes.getD j Box.zero) := by
  have h1 : (boxes.map area).getD i 0 = area (boxes.getD i Box.zero) := by
    rw [List.getD_eq_getElem _ _ (by simpa using hi), List.getElem_map,
      List.getD_eq_getElem _ _ hi]
  have h2 : (boxes.map area).getD j 0 = area (boxes.getD j Box.zero) := by
    rw [List.getD_eq_getElem _ _ (by simpa using hj), List.getElem_map,
      List.getD_eq_getElem _ _ hj]
  rw [iouAt, iou, h1, h2]

lemma interArea_comm (a b : Box α) : interArea a b = interArea b a := by
  simp [interArea, min_comm, max_comm]

lemma iou_comm (a b : Box α) : iou a b = iou b a := by
  rw [iou, iou, interArea_comm, add_comm (area a)]

/-! ### C1: what the weighted merge actually averages -/

/-- C1 counterexample.  Two boxes with scores 0.9 and 0.6 whose IoU (4/7)
exceeds the threshold 1/2: `_nms` returns a single box whose coordinates are
exactly the *lower-scored* box's coordinates — the average is taken over the
overlapping partition only — and not the score-weighted average over the
union of `best` and its overlapping boxes that the claim describes. -/
theorem nms_vote_excludes_best_cex :
    nms ([⟨0, 0, 10, 10, 9/10⟩, ⟨3, 0, 13, 10, 6/10⟩] : List (Box ℚ)) (1/2)
        = [⟨3, 0, 13, 10, 9/10⟩] ∧
      (1/2 : ℚ) < iou (⟨0, 0, 10, 10, 9/10⟩ : Box ℚ) ⟨3, 0, 13, 10, 6/10⟩ ∧
      (⟨3, 0, 13, 10, 9/10⟩ : Box ℚ) ≠
        ⟨(9/10 * 0 + 6/10 * 3) / (9/10 + 6/10),
         (9/10 * 0 + 6/10 * 0) / (9/10 + 6/10),
         (9/10 * 10 + 6/10 * 13) / (9/10 + 6/10),
         (9/10 * 10 + 6/10 * 10) / (9/10 + 6/10), 9/10⟩ := by
  refine ⟨?_, by norm_num [iou, interArea, area], by norm_num [Box.mk.injEq]⟩
  have hareas : List.map area ([⟨0, 0, 10, 10, 9/10⟩, ⟨3, 0, 13, 10, 6/10⟩] : List (Box ℚ))
      = [121, 121] := by norm_num [area]
  have hranked : rankedIndices ([⟨0, 0, 10, 10, 9/10⟩, ⟨3, 0, 13, 10, 6/10⟩] : List (Box ℚ))
      = [0, 1] := by
    norm_num [rankedIndices, List.insertionSort, List.orderedInsert, List.getD]
  have hnon : nonOverlapping (1/2 : ℚ) [121, 121]
      [⟨0, 0, 10, 10, 9/10⟩, ⟨3, 0, 13, 10, 6/10⟩] 0 [1] = [] := by
    norm_num [nonOverlapping, iouAt, interArea, List.getD, List.filter_cons]
  have hmerge : mergeBest (1/2 : ℚ) [121, 121]
      [⟨0, 0, 10, 10, 9/10⟩, ⟨3, 0, 13, 10, 6/10⟩] 0 [1]
      = [⟨3, 0, 13, 10, 9/10⟩, ⟨3, 0, 13, 10, 6/10⟩] := by
    norm_num [mergeBest, overlapping, iouAt, interArea, vote, setCoords,
      List.getD, List.filter_cons, Box.zero]
  have hrun : nmsRun ([⟨0, 0, 10, 10, 9/10⟩, ⟨3, 0, 13, 10, 6/10⟩] : List (Box ℚ)) (1/2)
      = ([0], [⟨3, 0, 13, 10, 9/10⟩, ⟨3, 0, 13, 10, 6/10⟩]) := by
    rw [nmsRun, hareas, hranked]
    exact nmsLoop_cons_eval hmerge hnon (nmsLoop_nil _ _ _)
  rw [nms, hrun]
  rfl

/-- C1 amended.  When a higher-scored box `b1` and a lower-scored box `b2`
overlap above the threshold, `_nms` keeps `b1`'s score but replaces its
coordinates by the score-weighted average of the *overlapping* partition
alone — here just `b2`, so the output coordinates are exactly `b2`'s, not
the weighted average over both boxes. -/
theorem nms_merge_pair_takes_overlap_average (b1 b2 : Box ℚ) (t : ℚ)
    (hs : b2.score ≤ b1.score) (hi : t < iou b1 b2) (hz : b2.score ≠ 0) :
    nms [b1, b2] t = [⟨b2.x1, b2.y1, b2.x2, b2.y2, b1.score⟩] := by
  have hranked : rankedIndices [b1, b2] = [0, 1] := by
    simp [rankedIndices, List.insertionSort, List.orderedInsert, List.getD, hs,
      List.range_succ]
  have hAt : iouAt [area b1, area b2] [b1, b2] 0 1 = iou b1 b2 := by
    simp [iouAt, iou, List.getD]
  have hover : overlapping t (List.map area [b1, b2]) [b1, b2] 0 [1] = [1] := by
    simp [overlapping, List.filter_cons, hAt, hi]
  have hnon : nonOverlapping t (List.map area [b1, b2]) [b1, b2] 0 [1] = [] := by
    simp [nonOverlapping, List.filter_cons, hAt, not_le.mpr hi]
  have hmerge : mergeBest t (List.map area [b1, b2]) [b1, b2] 0 [1]
      = [⟨b2.x1, b2.y1, b2.x2, b2.y2, b1.score⟩, b2] := by
    rw [mergeBest, hover]
    simp [vote, setCoords, List.getD, mul_div_cancel_left₀ _ hz]
  have hrun : nmsRun [b1, b2] t
      = ([0], [⟨b2.x1, b2.y1, b2.x2, b2.y2, b1.score⟩, b2]) := by
    rw [nmsRun, hranked]
    exact nmsLoop_cons_eval hmerge hnon (nmsLoop_nil _ _ _)
  rw [nms, hrun]
  rfl

/-- Witness for the amended C1 theorem at a concrete overlapping pair. -/
theorem nms_merge_pair_takes_overlap_average_witness :
    nms ([⟨0, 0, 10, 10, 9/10⟩, ⟨2, 1, 12, 11, 6/10⟩] : List (Box ℚ)) (1/2)
      = [⟨2, 1, 12, 11, 9/10⟩] := by
  exact nms_merge_pair_takes_overlap_average ⟨0, 0, 10, 10, 9/10⟩ ⟨2, 1, 12, 11, 6/10⟩
    (1/2) (by norm_num) (by norm_num [iou, interArea, area]) (by norm_num)

/-! ### Runs in which no pair overlaps above the threshold -/

lemma nmsLoop_no_overlap_aux (t : α) (areas : List α) :
    ∀ (n : ℕ) (arr : List (Box α)) (ranked : List ℕ), ranked.length ≤ n →
      ranked.Nodup →
      (∀ i ∈ ranked, ∀ j ∈ ranked, i ≠ j → iouAt areas arr i j ≤ t) →
      nmsLoop t areas arr ranked = (ranked, arr) := by
  intro n
  induction n with
  | zero =>
    intro arr ranked hle _ _
    rw [List.length_eq_zero.mp (Nat.le_zero.mp hle)]
    exact nmsLoop_nil _ _ _
  | succ n ih =>
    intro arr ranked hle hnd h
    cases ranked with
    | nil => exact nmsLoop_nil _ _ _
    | cons best rest =>
      have hbest : best ∉ rest := (List.nodup_cons.mp hnd).1
      have hover : overlapping t areas arr best rest = [] := by
        rw [overlapping, List.filter_eq_nil_iff]
        intro j hj
        have hne : best ≠ j := fun he => hbest (he ▸ hj)
        have := h best (List.mem_cons_self _ _) j (List.mem_cons_of_mem _ hj) hne
        simpa using not_lt.mpr this
      have hnon : nonOverlapping t areas arr best rest = rest := by
        rw [nonOverlapping, List.filter_eq_self]
        intro j hj
        have hne : best ≠ j := fun he => hbest (he ▸ hj)
        simpa using h best (List.mem_cons_self _ _) j (List.mem_cons_of_mem _ hj) hne
      have hmerge : mergeBest t areas arr best rest = arr := by
        rw [mergeBest, hover]
        rfl
      have hrec : nmsLoop t areas arr rest = (rest, arr) :=
        ih arr rest (Nat.le_of_succ_le_succ (by simpa using hle))
          (List.nodup_cons.mp hnd).2
          (fun i hi j hj hij =>
            h i (List.mem_cons_of_mem _ hi) j (List.mem_cons_of_mem _ hj) hij)
      exact nmsLoop_cons_eval hmerge hnon hrec

/-- If no two distinct positions of the array overlap above the threshold,
the loop retains every index in order and never writes to the array. -/
lemma nmsLoop_no_overlap (t : α) (areas : List α) (arr : List (Box α))
    (ranked : List ℕ) (hnd : ranked.Nodup)
    (h : ∀ i ∈ ranked, ∀ j ∈ ranked, i ≠ j → iouAt areas arr i j ≤ t) :
    nmsLoop t areas arr ranked = (ranked, arr) :=
  nmsLoop_no_overlap_aux t areas ranked.length arr ranked le_rfl hnd h

lemma pairwise_iouAt_le {boxes : List (Box α)} {t : α}
    (h : boxes.Pairwise fun a b => iou a b ≤ t) :
    ∀ i ∈ rankedIndices boxes, ∀ j ∈ rankedIndices boxes, i ≠ j →
      iouAt (boxes.map area) boxes i j ≤ t := by
  intro i hi j hj hij
  have hi2 : i < boxes.length := rankedIndices_mem hi
  have hj2 : j < boxes.length := rankedIndices_mem hj
  rw [iouAt_map_area boxes hi2 hj2, List.getD_eq_getElem _ _ hi2,
    List.getD_eq_getElem _ _ hj2]
  rcases hij.lt_or_lt with hlt | hlt
  · exact List.pairwise_iff_getElem.mp h i j hi2 hj2 hlt
  · rw [iou_comm]
    exact List.pairwise_iff_getElem.mp h j i hj2 hi2 hlt

lemma nms_no_overlap_run {boxes : List (Box α)} {t : α}
    (h : boxes.Pairwise fun a b => iou a b ≤ t) :
    nmsRun boxes t = (rankedIndices boxes, boxes) := by
  rw [nmsRun]
  exact nmsLoop_no_overlap _ _ _ _ (rankedIndices_nodup boxes) (pairwise_iouAt_le h)

lemma map_getD_range (l : List (Box α)) :
    (List.range l.length).map (fun i => l.getD i Box.zero) = l := by
  apply List.ext_getElem
  · simp
  · intro i h1 h2
    simp only [List.getElem_map, List.getElem_range]
    rw [List.getD_eq_getElem _ _ h2]

lemma rankedIndices_sorted (boxes : List (Box α)) :
    (rankedIndices boxes).Pairwise fun i j =>
      (boxes.getD j Box.zero).score ≤ (boxes.getD i Box.zero).score := by
  haveI : IsTotal ℕ (fun i j =>
      (boxes.getD j Box.zero).score ≤ (boxes.getD i Box.zero).score) :=
    ⟨fun _ _ => le_total _ _⟩
  haveI : IsTrans ℕ (fun i j =>
      (boxes.getD j Box.zero).score ≤ (boxes.getD i Box.zero).score) :=
    ⟨fun _ _ _ h1 h2 => le_trans h2 h1⟩
  exact List.sorted_insertionSort _ _

/-- A list already sorted by descending score in which no two boxes overlap
above the threshold passes through `_nms` unchanged. -/
lemma nms_eq_self_of_sorted (l : List (Box α)) (t : α)
    (hs : l.Pairwise fun a b => b.score ≤ a.score)
    (h : l.Pairwise fun a b => iou a b ≤ t) :
    nms l t = l := by
  have hranked : rankedIndices l = List.range l.length := by
    rw [rankedIndices]
    apply List.Sorted.insertionSort_eq
    apply List.pairwise_iff_getElem.mpr
    intro i j hi hj hij
    simp only [List.getElem_range]
    have hi2 : i < l.length := by simpa using hi
    have hj2 : j < l.length := by simpa using hj
    rw [List.getD_eq_getElem _ _ hi2, List.getD_eq_getElem _ _ hj2]
    exact List.pairwise_iff_getElem.mp hs i j hi2 hj2 hij
  rw [nms, nms_no_overlap_run h, hranked, map_getD_range]

/-! ### C10: `_nms` mutates its argument -/

/-- C10 counterexample.  On two overlapping boxes the merge step writes the
vote into row 0 of the caller's array (`boxes[best, :4] = vote`), so after
the call the array differs from what was passed in. -/
theorem nms_mutates_input_cex :
    nmsFinal ([⟨0, 0, 10, 10, 9/10⟩, ⟨3, 0, 13, 10, 6/10⟩] : List (Box ℚ)) (1/2)
        = [⟨3, 0, 13, 10, 9/10⟩, ⟨3, 0, 13, 10, 6/10⟩] ∧
      nmsFinal ([⟨0, 0, 10, 10, 9/10⟩, ⟨3, 0, 13, 10, 6/10⟩] : List (Box ℚ)) (1/2)
        ≠ [⟨0, 0, 10, 10, 9/10⟩, ⟨3, 0, 13, 10, 6/10⟩] := by
  have hareas : List.map area ([⟨0, 0, 10, 10, 9/10⟩, ⟨3, 0, 13, 10, 6/10⟩] : List (Box ℚ))
      = [121, 121] := by norm_num [area]
  have hranked : rankedIndices ([⟨0, 0, 10, 10, 9/10⟩, ⟨3, 0, 13, 10, 6/10⟩] : List (Box ℚ))
      = [0, 1] := by
    norm_num [rankedIndices, List.insertionSort, List.orderedInsert, List.getD]
  have hnon : nonOverlapping (1/2 : ℚ) [121, 121]
      [⟨0, 0, 10, 10, 9/10⟩, ⟨3, 0, 13, 10, 6/10⟩] 0 [1] = [] := by
    norm_num [nonOverlapping, iouAt, interArea, List.getD, List.filter_cons]
  have hmerge : mergeBest (1/2 : ℚ) [121, 121]
      [⟨0, 0, 10, 10, 9/10⟩, ⟨3, 0, 13, 10, 6/10⟩] 0 [1]
      = [⟨3, 0, 13, 10, 9/10⟩, ⟨3, 0, 13, 10, 6/10⟩] := by
    norm_num [mergeBest, overlapping, iouAt, interArea, vote, setCoords,
      List.getD, List.filter_cons, Box.zero]
  have hrun : nmsRun ([⟨0, 0, 10, 10, 9/10⟩, ⟨3, 0, 13, 10, 6/10⟩] : List (Box ℚ)) (1/2)
      = ([0], [⟨3, 0, 13, 10, 9/10⟩, ⟨3, 0, 13, 10, 6/10⟩]) := by
    rw [nmsRun, hareas, hranked]
    exact nmsLoop_cons_eval hmerge hnon (nmsLoop_nil _ _ _)
  have hfin : nmsFinal ([⟨0, 0, 10, 10, 9/10⟩, ⟨3, 0, 13, 10, 6/10⟩] : List (Box ℚ)) (1/2)
      = [⟨3, 0, 13, 10, 9/10⟩, ⟨3, 0, 13, 10, 6/10⟩] := by
    rw [nmsFinal, hrun]
  refine ⟨hfin, ?_⟩
  rw [hfin]
  norm_num [Box.mk.injEq]

/-- C10 amended.  `_nms` writes into the caller's array whenever a merge
happens; the array is only guaranteed unchanged when no two distinct boxes
overlap above the threshold, in which case no merge step fires. -/
theorem nms_final_unchanged_of_no_overlap (boxes : List (Box ℚ)) (t : ℚ)
    (h : boxes.Pairwise fun a b => iou a b ≤ t) :
    nmsFinal boxes t = boxes := by
  rw [nmsFinal, nms_no_overlap_run h]

/-- Witness for the amended C10 theorem on two disjoint boxes. -/
theorem nms_final_unchanged_witness :
    nmsFinal ([⟨0, 0, 4, 4, 9/10⟩, ⟨40, 40, 44, 44, 1/2⟩] : List (Box ℚ)) (1/2)
      = [⟨0, 0, 4, 4, 9/10⟩, ⟨40, 40, 44, 44, 1/2⟩] := by
  apply nms_final_unchanged_of_no_overlap
  norm_num [List.pairwise_cons, iou, interArea, area]

/-! ### C4: idempotence of `_nms` -/

set_option maxHeartbeats 1000000 in
/-- C4 counterexample.  Three boxes where the weighted merge moves the best
box: the first pass returns two boxes whose IoU (4/7) exceeds the threshold,
so a second pass merges them again and returns a different (shorter) list —
`_nms` is not idempotent. -/
theorem nms_not_idempotent_cex :
    nms ([⟨0, 0, 10, 10, 9/10⟩, ⟨6, 0, 16, 10, 8/10⟩, ⟨3, 0, 13, 10, 1/2⟩] :
        List (Box ℚ)) (1/2)
      = [⟨3, 0, 13, 10, 9/10⟩, ⟨6, 0, 16, 10, 8/10⟩] ∧
    nms (nms ([⟨0, 0, 10, 10, 9/10⟩, ⟨6, 0, 16, 10, 8/10⟩, ⟨3, 0, 13, 10, 1/2⟩] :
        List (Box ℚ)) (1/2)) (1/2)
      ≠ nms ([⟨0, 0, 10, 10, 9/10⟩, ⟨6, 0, 16, 10, 8/10⟩, ⟨3, 0, 13, 10, 1/2⟩] :
        List (Box ℚ)) (1/2) := by
  have hareas : List.map area
      ([⟨0, 0, 10, 10, 9/10⟩, ⟨6, 0, 16, 10, 8/10⟩, ⟨3, 0, 13, 10, 1/2⟩] : List (Box ℚ))
      = [121, 121, 121] := by norm_num [area]
  have hranked : rankedIndices
      ([⟨0, 0, 10, 10, 9/10⟩, ⟨6, 0, 16, 10, 8/10⟩, ⟨3, 0, 13, 10, 1/2⟩] : List (Box ℚ))
      = [0, 1, 2] := by
    norm_num [rankedIndices, List.insertionSort, List.orderedInsert, List.getD]
  have hnon1 : nonOverlapping (1/2 : ℚ) [121, 121, 121]
      [⟨0, 0, 10, 10, 9/10⟩, ⟨6, 0, 16, 10, 8/10⟩, ⟨3, 0, 13, 10, 1/2⟩] 0 [1, 2]
      = [1] := by
    norm_num [nonOverlapping, iouAt, interArea, List.getD, List.filter_cons]
  have hmerge1 : mergeBest (1/2 : ℚ) [121, 121, 121]
      [⟨0, 0, 10, 10, 9/10⟩, ⟨6, 0, 16, 10, 8/10⟩, ⟨3, 0, 13, 10, 1/2⟩] 0 [1, 2]
      = [⟨3, 0, 13, 10, 9/10⟩, ⟨6, 0, 16, 10, 8/10⟩, ⟨3, 0, 13, 10, 1/2⟩] := by
    norm_num [mergeBest, overlapping, iouAt, interArea, vote, setCoords,
      List.getD, List.filter_cons, Box.zero]
  have hnon2 : nonOverlapping (1/2 : ℚ) [121, 121, 121]
      [⟨3, 0, 13, 10, 9/10⟩, ⟨6, 0, 16, 10, 8/10⟩, ⟨3, 0, 13, 10, 1/2⟩] 1 [] = [] := rfl
  have hmerge2 : mergeBest (1/2 : ℚ) [121, 121, 121]
      [⟨3, 0, 13, 10, 9/10⟩, ⟨6, 0, 16, 10, 8/10⟩, ⟨3, 0, 13, 10, 1/2⟩] 1 []
      = [⟨3, 0, 13, 10, 9/10⟩, ⟨6, 0, 16, 10, 8/10⟩, ⟨3, 0, 13, 10, 1/2⟩] := rfl
  have hrun : nmsRun
      ([⟨0, 0, 10, 10, 9/10⟩, ⟨6, 0, 16, 10, 8/10⟩, ⟨3, 0, 13, 10, 1/2⟩] : List (Box ℚ))
      (1/2)
      = ([0, 1], [⟨3, 0, 13, 10, 9/10⟩, ⟨6, 0, 16, 10, 8/10⟩, ⟨3, 0, 13, 10, 1/2⟩]) := by
    rw [nmsRun, hareas, hranked]
    exact nmsLoop_cons_eval hmerge1 hnon1
      (nmsLoop_cons_eval hmerge2 hnon2 (nmsLoop_nil _ _ _))
  have h1 : nms
      ([⟨0, 0, 10, 10, 9/10⟩, ⟨6, 0, 16, 10, 8/10⟩, ⟨3, 0, 13, 10, 1/2⟩] : List (Box ℚ))
      (1/2)
      = [⟨3, 0, 13, 10, 9/10⟩, ⟨6, 0, 16, 10, 8/10⟩] := by
    rw [nms, hrun]
    rfl
  refine ⟨h1, ?_⟩
  rw [h1]
  have hareas2 : List.map area
      ([⟨3, 0, 13, 10, 9/10⟩, ⟨6, 0, 16, 10, 8/10⟩] : List (Box ℚ)) = [121, 121] := by
    norm_num [area]
  have hranked2 : rankedIndices
      ([⟨3, 0, 13, 10, 9/10⟩, ⟨6, 0, 16, 10, 8/10⟩] : List (Box ℚ)) = [0, 1] := by
    norm_num [rankedIndices, List.insertionSort, List.orderedInsert, List.getD]
  have hnon3 : nonOverlapping (1/2 : ℚ) [121, 121]
      [⟨3, 0, 13, 10, 9/10⟩, ⟨6, 0, 16, 10, 8/10⟩] 0 [1] = [] := by
    norm_num [nonOverlapping, iouAt, interArea, List.getD, List.filter_cons]
  have hmerge3 : mergeBest (1/2 : ℚ) [121, 121]
      [⟨3, 0, 13, 10, 9/10⟩, ⟨6, 0, 16, 10, 8/10⟩] 0 [1]
      = [⟨6, 0, 16, 10, 9/10⟩, ⟨6, 0, 16, 10, 8/10⟩] := by
    norm_num [mergeBest, overlapping, iouAt, interArea, vote, setCoords,
      List.getD, List.filter_cons, Box.zero]
  have hrun2 : nmsRun ([⟨3, 0, 13, 10, 9/10⟩, ⟨6, 0, 16, 10, 8/10⟩] : List (Box ℚ)) (1/2)
      = ([0], [⟨6, 0, 16, 10, 9/10⟩, ⟨6, 0, 16, 10, 8/10⟩]) := by
    rw [nmsRun, hareas2, hranked2]
    exact nmsLoop_cons_eval hmerge3 hnon3 (nmsLoop_nil _ _ _)
  have h2 : nms ([⟨3, 0, 13, 10, 9/10⟩, ⟨6, 0, 16, 10, 8/10⟩] : List (Box ℚ)) (1/2)
      = [⟨6, 0, 16, 10, 9/10⟩] := by
    rw [nms, hrun2]
    rfl
  rw [h2]
  simp

/-- C4 amended.  Idempotence holds exactly when the first pass never merges:
if no two distinct boxes of the input overlap above the threshold, `_nms`
only sorts the list by descending score, and a second application returns
its output unchanged.  (Once a merge fires, the merged coordinates can
overlap another retained box above the threshold and a second pass merges
further, as the counterexample shows.) -/
theorem nms_idempotent_of_no_overlap (boxes : List (Box ℚ)) (t : ℚ)
    (h : boxes.Pairwise fun a b => iou a b ≤ t) :
    nms (nms boxes t) t = nms boxes t := by
  have hout : nms boxes t = (rankedIndices boxes).map fun i => boxes.getD i Box.zero := by
    rw [nms, nms_no_overlap_run h]
  have hperm : (nms boxes t).Perm boxes := by
    rw [hout]
    have := (rankedIndices_perm boxes).map fun i => boxes.getD i Box.zero
    rwa [map_getD_range] at this
  have h2 : (nms boxes t).Pairwise fun a b => iou a b ≤ t :=
    (hperm.pairwise_iff fun hab => by rw [iou_comm]; exact hab).mpr h
  have hsorted : (nms boxes t).Pairwise fun a b => b.score ≤ a.score := by
    rw [hout]
    exact (rankedIndices_sorted boxes).map _ fun a b hab => hab
  exact nms_eq_self_of_sorted _ _ hsorted h2

/-- Witness for the amended C4 theorem on two disjoint boxes. -/
theorem nms_idempotent_witness :
    nms (nms ([⟨0, 0, 2, 2, 9/10⟩, ⟨30, 30, 33, 33, 1/2⟩] : List (Box ℚ)) (1/2)) (1/2)
      = nms ([⟨0, 0, 2, 2, 9/10⟩, ⟨30, 30, 33, 33, 1/2⟩] : List (Box ℚ)) (1/2) := by
  apply nms_idempotent_of_no_overlap
  norm_num [List.pairwise_cons, iou, interArea, area]

/-! ### C5: cardinality bounds -/

lemma nmsLoop_fst_le_aux (t : α) (areas : List α) :
    ∀ (n : ℕ) (arr : List (Box α)) (ranked : List ℕ), ranked.length ≤ n →
      (nmsLoop t areas arr ranked).1.length ≤ ranked.length := by
  intro n
  induction n with
  | zero =>
    intro arr ranked hle
    rw [List.length_eq_zero.mp (Nat.le_zero.mp hle), nmsLoop_nil]
  | succ n ih =>
    intro arr ranked hle
    cases ranked with
    | nil => rw [nmsLoop_nil]
    | cons best rest =>
      rw [nmsLoop_cons]
      have hfil : (nonOverlapping t areas arr best rest).length ≤ rest.length := by
        simpa [nonOverlapping] using List.length_filter_le _ rest
      have h1 := ih (mergeBest t areas arr best rest)
        (nonOverlapping t areas arr best rest)
        (le_trans hfil (Nat.le_of_succ_le_succ (by simpa using hle)))
      simpa using Nat.succ_le_succ (le_trans h1 hfil)

lemma nmsLoop_fst_pos (t : α) (areas : List α) (arr : List (Box α))
    {ranked : List ℕ} (hne : ranked ≠ []) :
    1 ≤ (nmsLoop t areas arr ranked).1.length := by
  cases ranked with
  | nil => exact absurd rfl hne
  | cons best rest =>
    rw [nmsLoop_cons]
    simp

/-- C5: `_nms` never returns more boxes than it was given, returns at least
one box when given at least one, and returns none when given none. -/
theorem nms_count_bounds (boxes : List (Box ℚ)) (t : ℚ) :
    (nms boxes t).length ≤ boxes.length ∧
      (1 ≤ boxes.length → 1 ≤ (nms boxes t).length) ∧
      (boxes.length = 0 → (nms boxes t).length = 0) := by
  have hlen : (nms boxes t).length = (nmsRun boxes t).1.length := by
    rw [nms, List.length_map]
  refine ⟨?_, ?_, ?_⟩
  · rw [hlen, nmsRun]
    exact le_trans
      (le_trans (nmsLoop_fst_le_aux t _ (rankedIndices boxes).length _ _ le_rfl) le_rfl)
      (le_of_eq (rankedIndices_length boxes))
  · intro h1
    rw [hlen, nmsRun]
    apply nmsLoop_fst_pos
    intro hemp
    have hlen2 := rankedIndices_length boxes
    rw [hemp] at hlen2
    simp at hlen2
    omega
  · intro h0
    have hnil : boxes = [] := List.length_eq_zero.mp h0
    subst hnil
    have hrun : nmsRun ([] : List (Box ℚ)) t = ([], []) := by
      rw [nmsRun]
      exact nmsLoop_nil _ _ _
    rw [nms, hrun]
    rfl

/-- Witness for C5 on a one-box input. -/
theorem nms_count_bounds_witness :
    (nms ([⟨0, 0, 2, 3, 1⟩] : List (Box ℚ)) (1/2)).length ≤ 1 ∧
      1 ≤ (nms ([⟨0, 0, 2, 3, 1⟩] : List (Box ℚ)) (1/2)).length := by
  exact ⟨(nms_count_bounds [⟨0, 0, 2, 3, 1⟩] (1/2)).1,
    (nms_count_bounds [⟨0, 0, 2, 3, 1⟩] (1/2)).2.1 (by norm_num)⟩

/-! ### C7: the area and IoU formulas of `_nms`, as the spec states them -/

/-- The spec's area formula: `(x2 - x1 + 1) * (y2 - y1 + 1)`. -/
def specArea (b : Box α) : α := (b.x2 - b.x1 + 1) * (b.y2 - b.y1 + 1)

/-- The spec's intersection formula with the +1 pixel convention and the
width/height clamped at zero. -/
def specInterArea (a b : Box α) : α :=
  max 0 (min a.x2 b.x2 - max a.x1 b.x1 + 1) *
    max 0 (min a.y2 b.y2 - max a.y1 b.y1 + 1)

/-- The spec's IoU: intersection over (sum of areas minus intersection). -/
def specIoU (a b : Box α) : α :=
  specInterArea a b / (specArea a + specArea b - specInterArea a b)

/-- C7: the `areas` vector of `_nms` is computed by the spec's +1 formula,
and the loop's IoU of positions `i` (best) and `j` (a member of rest) equals
the spec's clamped intersection-over-union of the two rows. -/
theorem nms_area_iou_formula (boxes : List (Box ℚ)) (i j : ℕ)
    (hi : i < boxes.length) (hj : j < boxes.length) :
    area (boxes.getD i Box.zero) = specArea (boxes.getD i Box.zero) ∧
      iouAt (boxes.map area) boxes i j =
        specIoU (boxes.getD i Box.zero) (boxes.getD j Box.zero) := by
  refine ⟨rfl, ?_⟩
  rw [iouAt_map_area boxes hi hj]
  rfl

/-- Witness for C7 on a concrete two-box array. -/
theorem nms_area_iou_formula_witness :
    area (⟨1, 2, 4, 7, 1⟩ : Box ℚ) = specArea (⟨1, 2, 4, 7, 1⟩ : Box ℚ) ∧
      iouAt (List.map area [⟨1, 2, 4, 7, 1⟩, ⟨2, 2, 5, 6, 1/2⟩])
          ([⟨1, 2, 4, 7, 1⟩, ⟨2, 2, 5, 6, 1/2⟩] : List (Box ℚ)) 0 1
        = specIoU (⟨1, 2, 4, 7, 1⟩ : Box ℚ) ⟨2, 2, 5, 6, 1/2⟩ := by
  have h := nms_area_iou_formula [⟨1, 2, 4, 7, 1⟩, ⟨2, 2, 5, 6, 1/2⟩] 0 1
    (by norm_num) (by norm_num)
  simpa [List.getD] using h

/-! ### C3: the decode formula -/

/-- C3: `decode` returns exactly the box with center
`(px + lx*0.1*pw, py + ly*0.1*ph)` and size `(pw*exp(lw*0.2), ph*exp(lh*0.2))`,
written out as `(center - size/2, center + size/2)`.  (The code computes
`x2` as `x1 + w`, which equals `center + size/2`.) -/
theorem decode_formula (location priorbox : ℝ × ℝ × ℝ × ℝ) :
    decode location priorbox =
      ((priorbox.1 + location.1 * 0.1 * priorbox.2.2.1)
          - priorbox.2.2.1 * Real.exp (location.2.2.1 * 0.2) / 2,
       (priorbox.2.1 + location.2.1 * 0.1 * priorbox.2.2.2)
          - priorbox.2.2.2 * Real.exp (location.2.2.2 * 0.2) / 2,
       (priorbox.1 + location.1 * 0.1 * priorbox.2.2.1)
          + priorbox.2.2.1 * Real.exp (location.2.2.1 * 0.2) / 2,
       (priorbox.2.1 + location.2.1 * 0.1 * priorbox.2.2.2)
          + priorbox.2.2.2 * Real.exp (location.2.2.2 * 0.2) / 2) := by
  simp only [decode, Prod.mk.injEq]
  refine ⟨by ring_nf, by ring_nf, by ring_nf, by ring_nf⟩

/-! ### C9: the single-anchor concrete scenario -/

/-- C9: one scale, one anchor, stride 4, post-softmax foreground score 0.9,
zero regression offsets, confidence 0.5: the prior has center (2, 2) and
size (16, 16), and the decoder emits exactly the box (-6, -6, 10, 10) with
score 0.9, which survives the confidence filter. -/
theorem single_anchor_scenario :
    postProcess (1/2) [⟨1, 1, fun _ _ => 9/10, fun _ _ => (0, 0, 0, 0)⟩]
      = [⟨-6, -6, 10, 10, 9/10⟩] := by
  norm_num [postProcess, candidatesFrom, scaleCandidates, decode, Real.exp_zero,
    List.range_succ, List.flatMap_cons, List.filterMap_cons, List.isEmpty_iff]

/-! ### C2: the no-candidates case returns a placeholder row, not an empty
list -/

/-- C2 counterexample.  One scale whose only cell clears the coarse 0.05
floor (score 0.8) but misses the 0.9 confidence threshold: zero candidates
survive, yet `_post_process` returns the single all-zero row
`np.zeros((1, 5))` and `_nms` passes it through — the per-image result is a
non-empty placeholder row, not an empty list. -/
theorem no_candidates_placeholder_cex :
    candidatesFrom (9/10) 0 [⟨1, 1, fun _ _ => 4/5, fun _ _ => (0, 0, 0, 0)⟩] = [] ∧
      finalizeSingle (9/10) [⟨1, 1, fun _ _ => 4/5, fun _ _ => (0, 0, 0, 0)⟩]
        = [⟨0, 0, 0, 0, 0⟩] ∧
      finalizeSingle (9/10) [⟨1, 1, fun _ _ => 4/5, fun _ _ => (0, 0, 0, 0)⟩] ≠ [] := by
  have hc : candidatesFrom (9/10) 0 [⟨1, 1, fun _ _ => 4/5, fun _ _ => (0, 0, 0, 0)⟩]
      = [] := by
    norm_num [candidatesFrom, scaleCandidates]
  have hpp : postProcess (9/10) [⟨1, 1, fun _ _ => 4/5, fun _ _ => (0, 0, 0, 0)⟩]
      = [Box.zero] := by
    simp only [postProcess, hc]
    rfl
  refine ⟨hc, ?_, ?_⟩
  · rw [finalizeSingle, hpp]
    exact nms_singleton _ _
  · rw [finalizeSingle, hpp, nms_singleton]
    simp [Box.zero]

/-- C2 amended.  When no candidate survives the filters, `_post_process`
returns the single placeholder row `np.zeros((1, 5))` rather than an empty
array, and the per-image pipeline result is that one zero row — a
well-defined non-error value, but not an empty list. -/
theorem no_candidates_yields_placeholder (confidence : ℝ)
    (scales : List ScaleTensors)
    (h : candidatesFrom confidence 0 scales = []) :
    postProcess confidence scales = [⟨0, 0, 0, 0, 0⟩] ∧
      finalizeSingle confidence scales = [⟨0, 0, 0, 0, 0⟩] := by
  have hpp : postProcess confidence scales = [Box.zero] := by
    simp only [postProcess, h]
    rfl
  exact ⟨hpp, by rw [finalizeSingle, hpp]; exact nms_singleton _ _⟩

/-- Witness for the amended C2 theorem: no scales at all, hence no
candidates. -/
theorem no_candidates_yields_placeholder_witness :
    postProcess (1/2) [] = [⟨0, 0, 0, 0, 0⟩] ∧
      finalizeSingle (1/2) [] = [⟨0, 0, 0, 0, 0⟩] :=
  no_candidates_yields_placeholder (1/2) [] rfl

/-! ### C8: the confidence gate is a monotone filter -/

lemma length_filterMap_mono {β γ : Type} (f g : β → Option γ) (l : List β)
    (h : ∀ a, (g a).isSome → (f a).isSome) :
    (l.filterMap g).length ≤ (l.filterMap f).length := by
  induction l with
  | nil => simp
  | cons a l ih =>
    rw [List.filterMap_cons, List.filterMap_cons]
    cases hg : g a with
    | none =>
      cases hf : f a with
      | none => exact ih
      | some c => simpa using Nat.le_succ_of_le ih
    | some c =>
      have hfs := h a (by rw [hg]; rfl)
      cases hf : f a with
      | none => rw [hf] at hfs; simp at hfs
      | some d => simpa using Nat.succ_le_succ ih

lemma length_flatMap_mono {β γ : Type} (f g : β → List γ) (l : List β)
    (h : ∀ a ∈ l, (g a).length ≤ (f a).length) :
    (l.flatMap g).length ≤ (l.flatMap f).length := by
  induction l with
  | nil => simp
  | cons a l ih =>
    rw [List.flatMap_cons, List.flatMap_cons, List.length_append, List.length_append]
    exact Nat.add_le_add (h a (List.mem_cons_self _ _))
      (ih fun x hx => h x (List.mem_cons_of_mem _ hx))

lemma scaleCandidates_mono {t1 t2 : ℝ} (h : t1 ≤ t2) (i : ℕ) (s : ScaleTensors) :
    (scaleCandidates t2 i s).length ≤ (scaleCandidates t1 i s).length := by
  rw [scaleCandidates, scaleCandidates]
  apply length_flatMap_mono
  intro hindex _
  apply length_filterMap_mono
  intro windex hsome
  by_cases h1 : (0.05 : ℝ) < s.cls hindex windex
  · by_cases h2 : t2 ≤ s.cls hindex windex
    · rw [if_pos h1, if_pos (le_trans h h2)]
      rfl
    · rw [if_pos h1, if_neg h2] at hsome
      simp at hsome
  · rw [if_neg h1] at hsome
    simp at hsome

lemma candidatesFrom_mono {t1 t2 : ℝ} (h : t1 ≤ t2) :
    ∀ (scales : List ScaleTensors) (i : ℕ),
      (candidatesFrom t2 i scales).length ≤ (candidatesFrom t1 i scales).length := by
  intro scales
  induction scales with
  | nil => intro i; simp [candidatesFrom]
  | cons s rest ih =>
    intro i
    rw [candidatesFrom, candidatesFrom, List.length_append, List.length_append]
    exact Nat.add_le_add (scaleCandidates_mono h i s) (ih (i + 1))

/-- C8: for a fixed set of input tensors, raising the confidence threshold
never increases the number of candidate rows the scale decoder emits
(the placeholder substitution of `_post_process` is downstream of this
count). -/
theorem candidates_monotone_in_confidence (scales : List ScaleTensors)
    (t1 t2 : ℝ) (h : t1 ≤ t2) :
    (candidatesFrom t2 0 scales).length ≤ (candidatesFrom t1 0 scales).length :=
  candidatesFrom_mono h scales 0

/-- Witness for C8 at thresholds 1/2 ≤ 19/20 on a one-anchor scale. -/
theorem candidates_monotone_in_confidence_witness :
    (candidatesFrom (19/20) 0 [⟨1, 1, fun _ _ => 9/10, fun _ _ => (0, 0, 0, 0)⟩]).length
      ≤ (candidatesFrom (1/2) 0 [⟨1, 1, fun _ _ => 9/10, fun _ _ => (0, 0, 0, 0)⟩]).length :=
  candidates_monotone_in_confidence _ _ _ (by norm_num)

/-! ### C6: the box-ordering invariant through both stages -/

lemma getD_cases {l : List (Box α)} {P : Box α → Prop}
    (hl : ∀ b ∈ l, P b) (hz : P Box.zero) (i : ℕ) :
    P (l.getD i Box.zero) := by
  by_cases hi : i < l.length
  · rw [List.getD_eq_getElem _ _ hi]
    exact hl _ (List.getElem_mem hi)
  · rw [List.getD_eq_default _ _ (not_lt.mp hi)]
    exact hz

lemma vote_ordered {bs : List (Box α)}
    (h : ∀ b ∈ bs, (b.x1 ≤ b.x2 ∧ b.y1 ≤ b.y2) ∧ 0 ≤ b.score) :
    (vote bs).1 ≤ (vote bs).2.2.1 ∧ (vote bs).2.1 ≤ (vote bs).2.2.2 := by
  have hw : 0 ≤ (bs.map Box.score).sum := by
    apply List.sum_nonneg
    intro x hx
    rcases List.mem_map.mp hx with ⟨b, hb, rfl⟩
    exact (h b hb).2
  have hx : ((bs.map fun b => b.score * b.x1).sum)
      ≤ ((bs.map fun b => b.score * b.x2).sum) :=
    List.sum_le_sum fun b hb => mul_le_mul_of_nonneg_left (h b hb).1.1 (h b hb).2
  have hy : ((bs.map fun b => b.score * b.y1).sum)
      ≤ ((bs.map fun b => b.score * b.y2).sum) :=
    List.sum_le_sum fun b hb => mul_le_mul_of_nonneg_left (h b hb).1.2 (h b hb).2
  rcases eq_or_lt_of_le hw with hw0 | hw0
  · constructor <;> simp [vote, ← hw0]
  · exact ⟨(div_le_div_iff_of_pos_right hw0).mpr hx,
      (div_le_div_iff_of_pos_right hw0).mpr hy⟩

lemma mergeBest_ordered {t : α} {areas : List α} {arr : List (Box α)}
    {best : ℕ} {rest : List ℕ}
    (h : ∀ b ∈ arr, (b.x1 ≤ b.x2 ∧ b.y1 ≤ b.y2) ∧ 0 ≤ b.score) :
    ∀ b ∈ mergeBest t areas arr best rest,
      (b.x1 ≤ b.x2 ∧ b.y1 ≤ b.y2) ∧ 0 ≤ b.score := by
  intro b hb
  rw [mergeBest] at hb
  split at hb
  · exact h b hb
  · rcases List.mem_or_eq_of_mem_set hb with hmem | hbeq
    · exact h b hmem
    · subst hbeq
      have hmem2 : ∀ b2 ∈ (overlapping t areas arr best rest).map
          (fun j => arr.getD j Box.zero),
          (b2.x1 ≤ b2.x2 ∧ b2.y1 ≤ b2.y2) ∧ 0 ≤ b2.score := by
        intro b2 hb2
        rcases List.mem_map.mp hb2 with ⟨j, _, rfl⟩
        exact getD_cases h (by norm_num [Box.zero]) j
      have hvote := vote_ordered hmem2
      refine ⟨⟨hvote.1, hvote.2⟩, ?_⟩
      exact (getD_cases h (by norm_num [Box.zero]) best).2

lemma nmsLoop_snd_ordered_aux (t : α) (areas : List α) :
    ∀ (n : ℕ) (arr : List (Box α)) (ranked : List ℕ), ranked.length ≤ n →
      (∀ b ∈ arr, (b.x1 ≤ b.x2 ∧ b.y1 ≤ b.y2) ∧ 0 ≤ b.score) →
      ∀ b ∈ (nmsLoop t areas arr ranked).2,
        (b.x1 ≤ b.x2 ∧ b.y1 ≤ b.y2) ∧ 0 ≤ b.score := by
  intro n
  induction n with
  | zero =>
    intro arr ranked hle h
    rw [List.length_eq_zero.mp (Nat.le_zero.mp hle), nmsLoop_nil]
    exact h
  | succ n ih =>
    intro arr ranked hle h
    cases ranked with
    | nil => rw [nmsLoop_nil]; exact h
    | cons best rest =>
      rw [nmsLoop_cons]
      have hfil : (nonOverlapping t areas arr best rest).length ≤ rest.length := by
        simpa [nonOverlapping] using List.length_filter_le _ rest
      exact ih (mergeBest t areas arr best rest)
        (nonOverlapping t areas arr best rest)
        (le_trans hfil (Nat.le_of_succ_le_succ (by simpa using hle)))
        (mergeBest_ordered h)

/-- `_nms` preserves coordinate ordering: on an array of ordered boxes with
non-negative scores, every returned box is still ordered (merged rows are
score-weighted averages of ordered rows). -/
lemma nms_ordered {boxes : List (Box α)} {t : α}
    (h : ∀ b ∈ boxes, (b.x1 ≤ b.x2 ∧ b.y1 ≤ b.y2) ∧ 0 ≤ b.score) :
    ∀ b ∈ nms boxes t, b.x1 ≤ b.x2 ∧ b.y1 ≤ b.y2 := by
  intro b hb
  rw [nms] at hb
  rcases List.mem_map.mp hb with ⟨i, _, rfl⟩
  have hsnd : ∀ b2 ∈ (nmsRun boxes t).2,
      (b2.x1 ≤ b2.x2 ∧ b2.y1 ≤ b2.y2) ∧ 0 ≤ b2.score := by
    rw [nmsRun]
    exact nmsLoop_snd_ordered_aux t (boxes.map area)
      (rankedIndices boxes).length boxes (rankedIndices boxes) le_rfl h
  exact (getD_cases hsnd (by norm_num [Box.zero]) i).1

/-- A decoded box is ordered whenever the prior's width and height are
non-negative: its size components are `prior size * exp(offset)` ≥ 0. -/
lemma decode_ordered (location priorbox : ℝ × ℝ × ℝ × ℝ)
    (hw : 0 ≤ priorbox.2.2.1) (hh : 0 ≤ priorbox.2.2.2) :
    (decode location priorbox).1 ≤ (decode location priorbox).2.2.1 ∧
      (decode location priorbox).2.1 ≤ (decode location priorbox).2.2.2 := by
  constructor
  · simp only [decode]
    exact le_add_of_nonneg_right (mul_nonneg hw (Real.exp_pos _).le)
  · simp only [decode]
    exact le_add_of_nonneg_right (mul_nonneg hh (Real.exp_pos _).le)

lemma scaleCandidates_ordered {confidence : ℝ} {i : ℕ} {s : ScaleTensors} :
    ∀ b ∈ scaleCandidates confidence i s,
      (b.x1 ≤ b.x2 ∧ b.y1 ≤ b.y2) ∧ 0 ≤ b.score := by
  intro b hb
  rw [scaleCandidates] at hb
  rcases List.mem_flatMap.mp hb with ⟨hindex, _, hb2⟩
  rcases List.mem_filterMap.mp hb2 with ⟨windex, _, hemit⟩
  by_cases h1 : (0.05 : ℝ) < s.cls hindex windex
  · by_cases h2 : confidence ≤ s.cls hindex windex
    · rw [if_pos h1, if_pos h2] at hemit
      have hbox := Option.some_inj.mp hemit
      subst hbox
      have hw : (0 : ℝ) ≤ (2 : ℝ) ^ (i + 2) * 4 := by positivity
      exact ⟨⟨(decode_ordered _ _ hw hw).1, (decode_ordered _ _ hw hw).2⟩,
        le_of_lt (lt_trans (by norm_num) h1)⟩
    · rw [if_pos h1, if_neg h2] at hemit
      cases hemit
  · rw [if_neg h1] at hemit
    cases hemit

lemma candidatesFrom_ordered {confidence : ℝ} :
    ∀ (scales : List ScaleTensors) (i : ℕ),
      ∀ b ∈ candidatesFrom confidence i scales,
        (b.x1 ≤ b.x2 ∧ b.y1 ≤ b.y2) ∧ 0 ≤ b.score := by
  intro scales
  induction scales with
  | nil => intro i b hb; rw [candidatesFrom] at hb; cases hb
  | cons s rest ih =>
    intro i b hb
    rw [candidatesFrom] at hb
    rcases List.mem_append.mp hb with hb1 | hb2
    · exact scaleCandidates_ordered b hb1
    · exact ih (i + 1) b hb2

/-- C6: every box produced by either pipeline stage — every row
`_post_process` emits (decoded candidates or the zero placeholder) and every
box the per-image `_nms` pass retains or merges — satisfies `x1 ≤ x2` and
`y1 ≤ y2`, with no runtime validation anywhere: the decode geometry (prior
sizes `stride*4 > 0` times `exp > 0`) gives it for the candidates, and the
weighted average of ordered rows with the non-negative scores the filter
guarantees preserves it through the merge. -/
theorem pipeline_boxes_ordered :
    (∀ (confidence : ℝ) (scales : List ScaleTensors),
        ∀ b ∈ postProcess confidence scales, b.x1 ≤ b.x2 ∧ b.y1 ≤ b.y2) ∧
      (∀ (confidence : ℝ) (scales : List ScaleTensors),
        ∀ b ∈ finalizeSingle confidence scales, b.x1 ≤ b.x2 ∧ b.y1 ≤ b.y2) := by
  have hpp : ∀ (confidence : ℝ) (scales : List ScaleTensors),
      ∀ b ∈ postProcess confidence scales,
        (b.x1 ≤ b.x2 ∧ b.y1 ≤ b.y2) ∧ 0 ≤ b.score := by
    intro confidence scales b hb
    rw [postProcess] at hb
    split at hb
    · rw [List.mem_singleton.mp hb]
      norm_num [Box.zero]
    · exact candidatesFrom_ordered scales 0 b hb
  exact ⟨fun c s b hb => (hpp c s b hb).1,
    fun c s b hb => nms_ordered (hpp c s) b hb⟩

/-- Witness for C6 at the empty-scales pipeline run (whose single output box
is the placeholder row). -/
theorem pipeline_boxes_ordered_witness :
    ((finalizeSingle (1/2) []).getD 0 Box.zero).x1
        ≤ ((finalizeSingle (1/2) []).getD 0 Box.zero).x2 ∧
      ((finalizeSingle (1/2) []).getD 0 Box.zero).y1
        ≤ ((finalizeSingle (1/2) []).getD 0 Box.zero).y2 := by
  have hfin : finalizeSingle (1/2 : ℝ) [] = [Box.zero] := by
    have hpp : postProcess (1/2 : ℝ) [] = [Box.zero] := rfl
    rw [finalizeSingle, hpp]
    exact nms_singleton _ _
  have hmem : (finalizeSingle (1/2) []).getD 0 Box.zero ∈ finalizeSingle (1/2) [] := by
    rw [hfin]
    simp [List.getD]
  exact pipeline_boxes_ordered.2 (1/2) [] _ hmem

end S3fd
